import Mathlib

/-!
Verification of the portfolio accounting engine in `src/portfolio.js`.

Numbers (JS floats) are modelled as exact rationals `ℚ`; the engine's
arithmetic is plain field arithmetic plus one tolerance comparison against
`1e-9`, all of which is expressed exactly over `ℚ`.  The JS object used as
the per-symbol lot accumulator map is modelled as an insertion-ordered
association list (JS objects enumerate non-numeric string keys in insertion
order, and updating an existing key keeps its position).  `Array.prototype.sort`
with the date comparator is a stable ascending sort; it is modelled by a
stable insertion sort, and — since it sorts the caller's array in place —
the content of the caller's array after `computeHoldings` returns is exposed
as `computeHoldingsTxAfter`.
-/

/-- A transaction record (see the data model and `addTx` call sites):
`side` is the raw string stored on the record (the engine compares it with
`"BUY"`), `date` is the millisecond timestamp `new Date(t.date)` evaluates to,
`notes` is free text with no accounting effect. -/
structure Tx where
  symbol : String
  side : String
  qty : ℚ
  price : ℚ
  date : ℤ
  notes : String
deriving DecidableEq

/-- Per-symbol lot accumulator `{qty, cost}` used inside `computeHoldings`. -/
structure Lot where
  qty : ℚ
  cost : ℚ
deriving DecidableEq

/-- The `lots` object: symbol → lot accumulator, insertion ordered. -/
abbrev LotMap := List (String × Lot)

/-- The float-noise tolerance `1e-9` from line 86 of `portfolio.js`. -/
def eps : ℚ := 1 / 1000000000

/-- `t.symbol.toUpperCase()` (line 73), modelled as per-character ASCII
uppercasing (the symbols this app stores are ASCII tickers). -/
def upperStr (s : String) : String :=
  ⟨s.data.map Char.toUpper⟩

/-- Reading `lots[s]`: first (unique) binding of key `s`, if any. -/
def getLot : LotMap → String → Option Lot
  | [], _ => none
  | (k, v) :: m, s => if s = k then some v else getLot m s

/-- Writing `lots[s] = v`: replace the existing binding in place, else append
(JS objects keep the position of an updated key and append new keys). -/
def setLot : LotMap → String → Lot → LotMap
  | [], s, v => [(s, v)]
  | (k, w) :: m, s, v => if s = k then (s, v) :: m else (k, w) :: setLot m s v

/-- The body of the `for(const t of transactions)` loop in `computeHoldings`
(lines 75–86), acting on one lot accumulator: signed qty update, cost-basis
growth on BUY, moving-average cost removal on SELL, then the `1e-9` snap of
both fields to zero. -/
def stepLot (l : Lot) (t : Tx) : Lot :=
  let sign : ℚ := if t.side = "BUY" then 1 else -1
  let qtyBefore := l.qty
  let qtyAfter := l.qty + sign * t.qty
  let costAfter :=
    if t.side = "BUY" then
      l.cost + t.qty * t.price
    else
      let avg := if qtyBefore > 0 then l.cost / qtyBefore else 0
      l.cost - min qtyBefore t.qty * avg
  if |qtyAfter| < eps then ⟨0, 0⟩ else ⟨qtyAfter, costAfter⟩

/-- One loop iteration of `computeHoldings` on the whole lot map: uppercases
the symbol, initialises the accumulator `{qty:0, cost:0}` if absent, and
stores the updated accumulator back. -/
def applyTx (m : LotMap) (t : Tx) : LotMap :=
  let s := upperStr t.symbol
  setLot m s (stepLot ((getLot m s).getD ⟨0, 0⟩) t)

/-- Insert a transaction into an already date-sorted list, before the first
strictly later element (so elements with equal dates keep their original
relative order). -/
def insertByDate (t : Tx) : List Tx → List Tx
  | [] => [t]
  | x :: xs => if t.date ≤ x.date then t :: x :: xs else x :: insertByDate t xs

/-- `transactions.sort((a,b)=> new Date(a.date) - new Date(b.date))`:
stable ascending sort by date, modelled as stable insertion sort. -/
def sortByDate : List Tx → List Tx
  | [] => []
  | x :: xs => insertByDate x (sortByDate xs)

/-- The lot map after the replay loop of `computeHoldings` has consumed the
whole (date-sorted) transaction list. -/
def finalLots (txs : List Tx) : LotMap :=
  (sortByDate txs).foldl applyTx []

/-- Derived holding emitted by `computeHoldings`. -/
structure Holding where
  symbol : String
  qty : ℚ
  avgCost : ℚ
deriving DecidableEq

/-- `computeHoldings` (lines 69–92): replay the date-sorted log into lot
accumulators, keep the symbols with `qty > 0`, and emit
`{symbol, qty, avgCost: v.qty ? v.cost/v.qty : 0}`. -/
def computeHoldings (txs : List Tx) : List Holding :=
  ((finalLots txs).filter (fun p => p.2.qty > 0)).map
    (fun p => ⟨p.1, p.2.qty, if p.2.qty = 0 then 0 else p.2.cost / p.2.qty⟩)

/-- Because `computeHoldings` sorts its argument array in place (line 71),
the caller's array holds this sequence after the call returns. -/
def computeHoldingsTxAfter (txs : List Tx) : List Tx :=
  sortByDate txs

/-- `computeCash` (lines 94–101): linear fold debiting BUYs and crediting
everything else at `qty × price`, from the starting cash. -/
def computeCash (txs : List Tx) (starting : ℚ) : ℚ :=
  txs.foldl
    (fun cash t => cash + (if t.side = "BUY" then (-1 : ℚ) else 1) * (t.qty * t.price))
    starting

/-- A parsed quote as produced by `fetchQuoteAlphaVantage`: `price` is the
truthy parsed price, `prevClose` is `null` (here `none`) when absent. -/
structure Quote where
  price : ℚ
  prevClose : Option ℚ
deriving DecidableEq

/-- `const last = q ? q.price : h.avgCost` in the `render` holdings loop
(line 126); the quotes object is modelled as a lookup function. -/
def lastPrice (quotes : String → Option Quote) (h : Holding) : ℚ :=
  match quotes h.symbol with
  | some q => q.price
  | none => h.avgCost

/-- `const prev = q ? (q.prevClose ?? last) : last` (line 127). -/
def prevCloseOf (quotes : String → Option Quote) (h : Holding) : ℚ :=
  match quotes h.symbol with
  | some q =>
    match q.prevClose with
    | some pc => pc
    | none => lastPrice quotes h
  | none => lastPrice quotes h

/-- `const value = h.qty * last` (line 128). -/
def holdingValue (quotes : String → Option Quote) (h : Holding) : ℚ :=
  h.qty * lastPrice quotes h

/-- `const pl = value - (h.qty * h.avgCost)` (line 133). -/
def unrealizedPL (quotes : String → Option Quote) (h : Holding) : ℚ :=
  holdingValue quotes h - h.qty * h.avgCost

/-- The per-holding contribution `h.qty * (last - prev)` added into
`dayChangeValue` (line 131). -/
def dayChangeContrib (quotes : String → Option Quote) (h : Holding) : ℚ :=
  h.qty * (lastPrice quotes h - prevCloseOf quotes h)

/-- `const plPct = (pl / (h.qty * h.avgCost)) * 100` (line 134) under IEEE
semantics: when the denominator is `0` the float quotient is `±Infinity` or
`NaN` — non-finite, modelled as `none`; otherwise the exact finite ratio. -/
def plPctRaw (quotes : String → Option Quote) (h : Holding) : Option ℚ :=
  if h.qty * h.avgCost = 0 then none
  else some (unrealizedPL quotes h / (h.qty * h.avgCost) * 100)

/-- The value actually surfaced, `isFinite(plPct) ? plPct : 0` (line 144). -/
def plPctShown (quotes : String → Option Quote) (h : Holding) : ℚ :=
  (plPctRaw quotes h).getD 0

/-- The part of `Settings.get()` that `fetchQuotes` reads (line 53). -/
structure QuoteSettings where
  provider : String
  apiKey : String
deriving DecidableEq

/-- `fetchQuotes` (lines 52–66).  The network is abstracted by `oracle`,
giving the outcome of one `fetchQuoteAlphaVantage` round-trip per symbol
(`some q` = parsed quote, `none` = a thrown error that line 61 swallows);
the inter-request throttle delay has no effect on the data and is not
modelled.  The first component is the quotes mapping built in `out`; the
second lists the symbols for which a provider HTTP call was attempted,
in order. -/
def fetchQuotes (st : QuoteSettings) (oracle : String → Option Quote)
    (symbols : List String) : List (String × Quote) × List String :=
  if st.provider = "alphavantage" then
    symbols.foldl
      (fun acc s =>
        match oracle s with
        | some q => (acc.1 ++ [(s, q)], acc.2 ++ [s])
        | none => (acc.1, acc.2 ++ [s]))
      ([], [])
  else ([], [])

/-- The quote-fetch step of `render` (lines 115–118):
`if (settings.apiKey && symbols.length) quotes = await fetchQuotes(symbols)`,
else the quotes mapping stays `{}` and no fetch happens. -/
def renderQuotes (st : QuoteSettings) (oracle : String → Option Quote)
    (symbols : List String) : List (String × Quote) × List String :=
  if st.apiKey ≠ "" ∧ symbols ≠ [] then fetchQuotes st oracle symbols
  else ([], [])

/-- C1: for [BUY 10 @ 10, SELL 4 @ sp] (any sell price sp), `computeHoldings`
returns one holding with `qty = 6` and `avgCost = 10`: a partial SELL under
the moving-average method leaves the average cost of the remainder unchanged. -/
theorem C1_partial_sell_keeps_avgCost (sp : ℚ) :
    computeHoldings
      [⟨"AAA", "BUY", 10, 10, 1, ""⟩, ⟨"AAA", "SELL", 4, sp, 2, ""⟩] =
      [⟨"AAA", 6, 10⟩] := by
  simp [computeHoldings, finalLots, sortByDate, insertByDate, applyTx, stepLot,
    getLot, setLot, eps]
  norm_num
  decide

/-- Inserting into a date-sorted list is a permutation of consing. -/
theorem insertByDate_perm (t : Tx) (l : List Tx) :
    (insertByDate t l).Perm (t :: l) := by
  induction l with
  | nil => exact List.Perm.refl _
  | cons x xs ih =>
    simp only [insertByDate]
    split
    · exact List.Perm.refl _
    · exact (ih.cons x).trans (List.Perm.swap t x xs)

/-- The date sort permutes the input list. -/
theorem sortByDate_perm (l : List Tx) : (sortByDate l).Perm l := by
  induction l with
  | nil => exact List.Perm.refl _
  | cons x xs ih => exact (insertByDate_perm x (sortByDate xs)).trans (ih.cons x)

/-- C2 counterexample: two transactions whose dates are out of input order;
after `computeHoldings` returns, the caller's (in-place sorted) array is no
longer in the original order, refuting "same elements in the same order". -/
theorem C2_sort_mutation_counterexample :
    computeHoldingsTxAfter
        [⟨"AAA", "BUY", 1, 1, 2, ""⟩, ⟨"BBB", "BUY", 1, 1, 1, ""⟩] ≠
      [⟨"AAA", "BUY", 1, 1, 2, ""⟩, ⟨"BBB", "BUY", 1, 1, 1, ""⟩] := by
  decide

/-- C2 (amended): `computeHoldings` sorts the caller's array in place, so
after the call the caller's sequence is a permutation (the stable date-sort)
of the original — the same elements, but not necessarily the same order. -/
theorem C2_holdings_permutes_input (txs : List Tx) :
    (computeHoldingsTxAfter txs).Perm txs :=
  sortByDate_perm txs

/-- `computeCash` as a closed form: starting cash plus the signed trade flows,
with the code's sign convention (BUY debits, any other side credits). -/
theorem computeCash_eq_sum (txs : List Tx) : ∀ starting : ℚ,
    computeCash txs starting =
      starting +
        (txs.map fun t =>
          (if t.side = "BUY" then (-1 : ℚ) else 1) * (t.qty * t.price)).sum := by
  induction txs with
  | nil => intro s; simp [computeCash]
  | cons t ts ih =>
    intro s
    simp only [computeCash, List.foldl_cons] at ih ⊢
    rw [ih, List.map_cons, List.sum_cons]
    ring

/-- C3: `computeCash` is permutation-invariant, and on transactions whose side
is BUY or SELL it equals startingCash + Σ (SELL ? +1 : −1) × qty × price. -/
theorem C3_cash_commutative (starting : ℚ) (txs txs' : List Tx)
    (hperm : txs.Perm txs')
    (hside : ∀ t ∈ txs, t.side = "BUY" ∨ t.side = "SELL") :
    computeCash txs' starting = computeCash txs starting ∧
    computeCash txs starting =
      starting +
        (txs.map fun t =>
          (if t.side = "SELL" then (1 : ℚ) else -1) * (t.qty * t.price)).sum := by
  constructor
  · rw [computeCash_eq_sum, computeCash_eq_sum, (hperm.map _).sum_eq]
  · rw [computeCash_eq_sum]
    have hmaps :
        (txs.map fun t => (if t.side = "BUY" then (-1 : ℚ) else 1) * (t.qty * t.price)) =
          txs.map fun t => (if t.side = "SELL" then (1 : ℚ) else -1) * (t.qty * t.price) := by
      apply List.map_congr_left
      intro t ht
      rcases hside t ht with hb | hs
      · simp [hb]
      · simp [hs]
    rw [hmaps]

/-- Witness: C3 at starting cash 5 on a two-transaction list and its swap. -/
theorem C3_cash_commutative_witness :
    computeCash [⟨"B", "SELL", 2, 3, 9, ""⟩, ⟨"A", "BUY", 1, 4, 7, ""⟩] 5 =
        computeCash [⟨"A", "BUY", 1, 4, 7, ""⟩, ⟨"B", "SELL", 2, 3, 9, ""⟩] 5 ∧
    computeCash [⟨"A", "BUY", 1, 4, 7, ""⟩, ⟨"B", "SELL", 2, 3, 9, ""⟩] 5 =
      5 +
        (([⟨"A", "BUY", 1, 4, 7, ""⟩, ⟨"B", "SELL", 2, 3, 9, ""⟩] : List Tx).map
            fun t => (if t.side = "SELL" then (1 : ℚ) else -1) * (t.qty * t.price)).sum :=
  C3_cash_commutative 5 _ _ (by decide) (by decide)

/-- C7: a holding whose symbol is absent from the quotes mapping is valued at
its own cost basis: both prices fall back to `avgCost`, so it contributes 0
to the day change and has exactly 0 unrealized P&L. -/
theorem C7_missing_quote_fallback (quotes : String → Option Quote) (h : Holding)
    (hq : quotes h.symbol = none) :
    lastPrice quotes h = h.avgCost ∧ prevCloseOf quotes h = h.avgCost ∧
    dayChangeContrib quotes h = 0 ∧ unrealizedPL quotes h = 0 := by
  simp [lastPrice, prevCloseOf, dayChangeContrib, unrealizedPL, holdingValue, hq]

/-- Witness: C7 on a concrete holding with an empty quotes mapping. -/
theorem C7_missing_quote_fallback_witness :
    lastPrice (fun _ => none) ⟨"AAA", 2, 3⟩ = (3 : ℚ) ∧
    prevCloseOf (fun _ => none) ⟨"AAA", 2, 3⟩ = (3 : ℚ) ∧
    dayChangeContrib (fun _ => none) ⟨"AAA", 2, 3⟩ = 0 ∧
    unrealizedPL (fun _ => none) ⟨"AAA", 2, 3⟩ = 0 :=
  C7_missing_quote_fallback (fun _ => none) ⟨"AAA", 2, 3⟩ rfl

/-- C9: the surfaced percentage is total: the exact ratio when the cost-basis
denominator is nonzero, and 0 when the denominator is 0 (where the float
quotient would be non-finite) — never a non-finite value. -/
theorem C9_plPct_total (quotes : String → Option Quote) (h : Holding) :
    plPctShown quotes h =
      if h.qty * h.avgCost = 0 then 0
      else unrealizedPL quotes h / (h.qty * h.avgCost) * 100 := by
  by_cases hd : h.qty * h.avgCost = 0 <;> simp [plPctShown, plPctRaw, hd]

/-- C8 counterexample: with provider `alphavantage`, an empty API key and one
requested symbol, `fetchQuotes` itself still attempts a provider call for that
symbol (which fails and is swallowed, so the mapping comes back empty): the
attempted-call list is `["AAA"]`, not `[]`. -/
theorem C8_fetch_counterexample :
    fetchQuotes ⟨"alphavantage", ""⟩ (fun _ => none) ["AAA"] = ([], ["AAA"]) ∧
    (["AAA"] : List String) ≠ ([] : List String) := by
  constructor
  · rfl
  · decide

/-- C8 (amended): the missing-credentials short-circuit is implemented at
`fetchQuotes`'s call site in `render`: with an empty API key the fetch step is
skipped entirely, yielding an empty quotes mapping and no attempted calls. -/
theorem C8_render_skips_fetch_without_key (st : QuoteSettings)
    (oracle : String → Option Quote) (symbols : List String)
    (hkey : st.apiKey = "") :
    renderQuotes st oracle symbols = ([], []) := by
  simp [renderQuotes, hkey]

/-- Witness: C8 (amended) on a concrete settings value and symbol list. -/
theorem C8_render_skips_fetch_without_key_witness :
    renderQuotes ⟨"alphavantage", ""⟩ (fun _ => none) ["AAA"] = ([], []) :=
  C8_render_skips_fetch_without_key ⟨"alphavantage", ""⟩ (fun _ => none) ["AAA"] rfl

/-- C5: a BUY of `q` @ `p` followed by a SELL of the same `q` at any price
leaves the symbol with accumulator qty 0 (snapped to exactly `⟨0,0⟩`), so the
symbol is pruned and absent from the holdings output. -/
theorem C5_full_liquidation (sym : String) (q p sp : ℚ) (hq : 0 < q) (hp : 0 ≤ p) :
    computeHoldings [⟨sym, "BUY", q, p, 1, ""⟩, ⟨sym, "SELL", q, sp, 2, ""⟩] = [] := by
  have hsort : sortByDate [⟨sym, "BUY", q, p, 1, ""⟩, ⟨sym, "SELL", q, sp, 2, ""⟩] =
      [⟨sym, "BUY", q, p, 1, ""⟩, ⟨sym, "SELL", q, sp, 2, ""⟩] := by
    simp [sortByDate, insertByDate]
  unfold computeHoldings finalLots
  rw [hsort]
  simp only [List.foldl_cons, List.foldl_nil]
  by_cases hsnap : q < eps
  · have h1 : applyTx [] ⟨sym, "BUY", q, p, 1, ""⟩ = [(upperStr sym, ⟨0, 0⟩)] := by
      simp [applyTx, stepLot, getLot, setLot, abs_of_pos hq, hsnap]
    rw [h1]
    have h2 : applyTx [(upperStr sym, (⟨0, 0⟩ : Lot))] ⟨sym, "SELL", q, sp, 2, ""⟩ =
        [(upperStr sym, ⟨0, 0⟩)] := by
      simp [applyTx, stepLot, getLot, setLot, abs_of_pos hq, hsnap]
    rw [h2]
    simp
  · have h1 : applyTx [] ⟨sym, "BUY", q, p, 1, ""⟩ = [(upperStr sym, ⟨q, q * p⟩)] := by
      simp [applyTx, stepLot, getLot, setLot, abs_of_pos hq, hsnap]
    rw [h1]
    have h2 : applyTx [(upperStr sym, (⟨q, q * p⟩ : Lot))] ⟨sym, "SELL", q, sp, 2, ""⟩ =
        [(upperStr sym, ⟨0, 0⟩)] := by
      have heps : (0 : ℚ) < eps := by norm_num [eps]
      simp [applyTx, stepLot, getLot, setLot, heps]
    rw [h2]
    simp

/-- Witness: C5 at BUY 3 @ 2 then SELL 3 @ 9 on symbol `aapl`. -/
theorem C5_full_liquidation_witness :
    computeHoldings
      [⟨"aapl", "BUY", 3, 2, 1, ""⟩, ⟨"aapl", "SELL", 3, 9, 2, ""⟩] = [] :=
  C5_full_liquidation "aapl" 3 2 9 (by norm_num) (by norm_num)

/-- A successful lookup pairs the queried key with the stored accumulator. -/
theorem getLot_mem (m : LotMap) (s : String) (v : Lot)
    (h : getLot m s = some v) : (s, v) ∈ m := by
  induction m with
  | nil => simp [getLot] at h
  | cons p rest ih =>
    obtain ⟨k, w⟩ := p
    simp only [getLot] at h
    by_cases hk : s = k
    · rw [if_pos hk] at h
      subst hk
      simp_all
    · rw [if_neg hk] at h
      exact List.mem_cons_of_mem _ (ih h)

/-- Every binding after a store was either there before or is the stored one. -/
theorem mem_setLot (m : LotMap) (s : String) (v : Lot) (p : String × Lot)
    (h : p ∈ setLot m s v) : p ∈ m ∨ p = (s, v) := by
  induction m with
  | nil => simp [setLot] at h; simp [h]
  | cons q rest ih =>
    obtain ⟨k, w⟩ := q
    simp only [setLot] at h
    by_cases hk : s = k
    · rw [if_pos hk] at h
      rcases List.mem_cons.1 h with h1 | h1
      · right; exact h1
      · left; exact List.mem_cons_of_mem _ h1
    · rw [if_neg hk] at h
      rcases List.mem_cons.1 h with h1 | h1
      · left; exact h1 ▸ List.mem_cons_self _ _
      · rcases ih h1 with h2 | h2
        · left; exact List.mem_cons_of_mem _ h2
        · right; exact h2

/-- Keys after a store are the old keys plus possibly the stored key. -/
theorem mem_keys_setLot (m : LotMap) (s : String) (v : Lot) (a : String)
    (h : a ∈ (setLot m s v).map Prod.fst) :
    a ∈ m.map Prod.fst ∨ a = s := by
  rcases List.mem_map.1 h with ⟨p, hp, rfl⟩
  rcases mem_setLot m s v p hp with h1 | h1
  · left; exact List.mem_map_of_mem _ h1
  · right; rw [h1]

/-- Storing a binding keeps the key list duplicate-free. -/
theorem nodup_keys_setLot (m : LotMap) (s : String) (v : Lot)
    (h : (m.map Prod.fst).Nodup) : ((setLot m s v).map Prod.fst).Nodup := by
  induction m with
  | nil => simp [setLot]
  | cons q rest ih =>
    obtain ⟨k, w⟩ := q
    simp only [setLot]
    by_cases hk : s = k
    · rw [if_pos hk]
      subst hk
      simpa using h
    · rw [if_neg hk]
      simp only [List.map_cons, List.nodup_cons] at h ⊢
      refine ⟨fun hmem => ?_, ih h.2⟩
      rcases mem_keys_setLot rest s v k hmem with h1 | h1
      · exact h.1 h1
      · exact hk h1.symm

/-- The replay loop keeps the lot-map keys duplicate-free. -/
theorem nodup_keys_foldl (l : List Tx) :
    ∀ m : LotMap, (m.map Prod.fst).Nodup → ((l.foldl applyTx m).map Prod.fst).Nodup := by
  induction l with
  | nil => intro m hm; simpa using hm
  | cons t ts ih =>
    intro m hm
    exact ih _ (nodup_keys_setLot m _ _ hm)

/-- The final lot map of any replay has duplicate-free keys. -/
theorem nodup_keys_finalLots (txs : List Tx) :
    ((finalLots txs).map Prod.fst).Nodup :=
  nodup_keys_foldl (sortByDate txs) [] (by simp)

/-- With duplicate-free keys, membership determines the lookup result. -/
theorem getLot_of_mem (m : LotMap) (s : String) (v : Lot)
    (hmem : (s, v) ∈ m) (hnd : (m.map Prod.fst).Nodup) : getLot m s = some v := by
  induction m with
  | nil => simp at hmem
  | cons q rest ih =>
    obtain ⟨k, w⟩ := q
    simp only [List.map_cons, List.nodup_cons] at hnd
    rcases List.mem_cons.1 hmem with h1 | h1
    · have hs : s = k := congrArg Prod.fst h1
      have hv : v = w := congrArg Prod.snd h1
      simp [getLot, hs, hv]
    · have hs : s ≠ k := by
        rintro rfl
        exact hnd.1 (List.mem_map_of_mem _ h1)
      simp only [getLot, if_neg hs]
      exact ih h1 hnd.2

/-- A symbol appears in the holdings output exactly when its final accumulator
exists and has strictly positive quantity. -/
theorem mem_holdings_symbol (txs : List Tx) (s : String)
    (h : s ∈ (computeHoldings txs).map Holding.symbol) :
    ∃ l : Lot, getLot (finalLots txs) s = some l ∧ 0 < l.qty := by
  rcases List.mem_map.1 h with ⟨hd, hhd, rfl⟩
  rcases List.mem_map.1 hhd with ⟨p, hp, rfl⟩
  have hpf := List.mem_filter.1 hp
  refine ⟨p.2, ?_, by simpa using hpf.2⟩
  exact getLot_of_mem _ _ _ (by simpa using hpf.1) (nodup_keys_finalLots txs)

/-- On a BUY, one loop iteration adds the signed quantity and the full trade
cost, then snaps. -/
theorem stepLot_buy (l : Lot) (t : Tx) (hb : t.side = "BUY") :
    stepLot l t =
      if |l.qty + t.qty| < eps then ⟨0, 0⟩
      else ⟨l.qty + t.qty, l.cost + t.qty * t.price⟩ := by
  simp [stepLot, hb]

/-- On any non-BUY side, one loop iteration subtracts the quantity and removes
`min(qtyBefore, qty)` times the prior average cost, then snaps. -/
theorem stepLot_sell (l : Lot) (t : Tx) (hb : ¬ t.side = "BUY") :
    stepLot l t =
      if |l.qty - t.qty| < eps then ⟨0, 0⟩
      else ⟨l.qty - t.qty,
        l.cost - min l.qty t.qty * (if 0 < l.qty then l.cost / l.qty else 0)⟩ := by
  simp [stepLot, hb, neg_one_mul, ← sub_eq_add_neg]

/-- One loop iteration keeps an accumulator's cost basis nonnegative when the
trade has positive quantity and nonnegative price: a BUY adds a nonnegative
amount, a SELL removes at most the whole cost (`min(qtyBefore,qty) ≤ qtyBefore`
times the prior average), and the snap resets to 0. -/
theorem stepLot_cost_nonneg (l : Lot) (t : Tx)
    (hl : 0 ≤ l.cost) (hq : 0 < t.qty) (hp : 0 ≤ t.price) :
    0 ≤ (stepLot l t).cost := by
  by_cases hb : t.side = "BUY"
  · rw [stepLot_buy l t hb]
    split
    · exact le_refl (0 : ℚ)
    · show (0 : ℚ) ≤ l.cost + t.qty * t.price
      positivity
  · rw [stepLot_sell l t hb]
    split
    · exact le_refl (0 : ℚ)
    · show (0 : ℚ) ≤ l.cost - min l.qty t.qty * (if 0 < l.qty then l.cost / l.qty else 0)
      by_cases h0 : 0 < l.qty
      · rw [if_pos h0, sub_nonneg]
        have hmin : min l.qty t.qty * (l.cost / l.qty) ≤ l.qty * (l.cost / l.qty) :=
          mul_le_mul_of_nonneg_right (min_le_left _ _) (div_nonneg hl h0.le)
        have hcan : l.qty * (l.cost / l.qty) = l.cost :=
          mul_div_cancel₀ l.cost (ne_of_gt h0)
        exact hmin.trans (le_of_eq hcan)
      · rw [if_neg h0]
        simpa using hl

/-- The replay loop keeps every accumulator's cost basis nonnegative over any
well-formed transaction list. -/
theorem foldl_cost_nonneg (l : List Tx)
    (hwf : ∀ t ∈ l, 0 < t.qty ∧ 0 ≤ t.price) :
    ∀ m : LotMap, (∀ p ∈ m, 0 ≤ p.2.cost) →
      ∀ p ∈ l.foldl applyTx m, 0 ≤ p.2.cost := by
  induction l with
  | nil => intro m hm; simpa using hm
  | cons t ts ih =>
    intro m hm
    simp only [List.foldl_cons]
    apply ih (fun u hu => hwf u (List.mem_cons_of_mem _ hu))
    intro p hpmem
    rcases mem_setLot _ _ _ _ hpmem with h1 | h1
    · exact hm p h1
    · subst h1
      apply stepLot_cost_nonneg _ _ _ (hwf t (List.mem_cons_self _ _)).1
        (hwf t (List.mem_cons_self _ _)).2
      cases hget : getLot m (upperStr t.symbol) with
      | none => simp [hget]
      | some v =>
        simp only [hget, Option.getD_some]
        exact hm _ (getLot_mem _ _ _ hget)

/-- C4: on well-formed input (positive quantity, nonnegative price, side BUY
or SELL) every emitted holding has strictly positive quantity and nonnegative
average cost, and any symbol whose final accumulator quantity is ≤ 0 is absent
from the output. -/
theorem C4_holdings_invariants (txs : List Tx)
    (hwf : ∀ t ∈ txs, 0 < t.qty ∧ 0 ≤ t.price ∧ (t.side = "BUY" ∨ t.side = "SELL")) :
    (∀ h ∈ computeHoldings txs, 0 < h.qty ∧ 0 ≤ h.avgCost) ∧
    (∀ (s : String) (l : Lot), getLot (finalLots txs) s = some l → l.qty ≤ 0 →
      s ∉ (computeHoldings txs).map Holding.symbol) := by
  constructor
  · intro h hmem
    rcases List.mem_map.1 hmem with ⟨p, hp, rfl⟩
    have hpf := List.mem_filter.1 hp
    have hqty : 0 < p.2.qty := by simpa using hpf.2
    have hcost : 0 ≤ p.2.cost := by
      apply foldl_cost_nonneg (sortByDate txs) ?_ [] (by simp) p hpf.1
      intro t ht
      have ht' : t ∈ txs := (sortByDate_perm txs).subset ht
      exact ⟨(hwf t ht').1, (hwf t ht').2.1⟩
    refine ⟨hqty, ?_⟩
    simp only [ne_of_gt hqty, if_neg (ne_of_gt hqty).symm]
    exact div_nonneg hcost hqty.le
  · intro s l hget hle hmem
    rcases mem_holdings_symbol txs s hmem with ⟨l', hget', hpos⟩
    rw [hget] at hget'
    cases hget'
    exact absurd hpos (not_lt.2 hle)

/-- Witness: C4 on a concrete two-trade ledger (partial sell of AAA plus an
oversold BBB position that must not appear). -/
theorem C4_holdings_invariants_witness :
    (∀ h ∈ computeHoldings
        [⟨"AAA", "BUY", 10, 10, 1, ""⟩, ⟨"BBB", "BUY", 1, 2, 2, ""⟩,
         ⟨"BBB", "SELL", 3, 1, 3, ""⟩],
      0 < h.qty ∧ 0 ≤ h.avgCost) ∧
    (∀ (s : String) (l : Lot),
      getLot (finalLots
        [⟨"AAA", "BUY", 10, 10, 1, ""⟩, ⟨"BBB", "BUY", 1, 2, 2, ""⟩,
         ⟨"BBB", "SELL", 3, 1, 3, ""⟩]) s = some l → l.qty ≤ 0 →
      s ∉ (computeHoldings
        [⟨"AAA", "BUY", 10, 10, 1, ""⟩, ⟨"BBB", "BUY", 1, 2, 2, ""⟩,
         ⟨"BBB", "SELL", 3, 1, 3, ""⟩]).map Holding.symbol) :=
  C4_holdings_invariants _ (by decide)

/-- The snap tolerance is positive. -/
theorem eps_pos : (0 : ℚ) < eps := by norm_num [eps]

/-- Total traded quantity of a transaction list. -/
def sumQty (txs : List Tx) : ℚ := (txs.map Tx.qty).sum

/-- Total gross trade value `Σ qty × price` of a transaction list. -/
def sumGross (txs : List Tx) : ℚ := (txs.map fun t => t.qty * t.price).sum

/-- Replaying a run of BUYs of one symbol onto that symbol's accumulator adds
the total quantity and the total gross cost, with no snap firing as long as
the running quantity stays at or above the tolerance. -/
theorem foldl_buys_single (sym : String) :
    ∀ (l : List Tx) (Q C : ℚ), eps ≤ Q →
      (∀ t ∈ l, t.symbol = sym ∧ t.side = "BUY" ∧ 0 < t.qty) →
      l.foldl applyTx [(upperStr sym, ⟨Q, C⟩)] =
        [(upperStr sym, ⟨Q + sumQty l, C + sumGross l⟩)] := by
  intro l
  induction l with
  | nil =>
    intro Q C hQ hl
    simp [sumQty, sumGross]
  | cons t ts ih =>
    intro Q C hQ hl
    have ht := hl t (List.mem_cons_self _ _)
    have hQpos : (0 : ℚ) < Q := lt_of_lt_of_le eps_pos hQ
    have hQt : eps ≤ Q + t.qty := by linarith [ht.2.2]
    have happ : applyTx [(upperStr sym, (⟨Q, C⟩ : Lot))] t =
        [(upperStr sym, ⟨Q + t.qty, C + t.qty * t.price⟩)] := by
      have hsym : upperStr t.symbol = upperStr sym := by rw [ht.1]
      have hnosnap : ¬ |Q + t.qty| < eps := by
        rw [abs_of_pos (by linarith [ht.2.2] : (0 : ℚ) < Q + t.qty)]
        linarith
      simp [applyTx, hsym, getLot, setLot, stepLot_buy _ _ ht.2.1, hnosnap]
    rw [List.foldl_cons, happ,
      ih _ _ hQt (fun u hu => hl u (List.mem_cons_of_mem _ hu))]
    simp only [sumQty, sumGross, List.map_cons, List.sum_cons]
    have e1 : Q + t.qty + (ts.map Tx.qty).sum = Q + (t.qty + (ts.map Tx.qty).sum) := by ring
    have e2 : C + t.qty * t.price + (ts.map fun t => t.qty * t.price).sum =
        C + (t.qty * t.price + (ts.map fun t => t.qty * t.price).sum) := by ring
    rw [e1, e2]

/-- C6 (amended): for a non-empty single-symbol all-BUY ledger whose
quantities are each at least the snap tolerance `1e-9`, `computeHoldings`
emits exactly one holding: total quantity, and gross cost over quantity (the
quantity-weighted average buy price). -/
theorem C6_all_buy_weighted_average (sym : String) (txs : List Tx) (hne : txs ≠ [])
    (hwf : ∀ t ∈ txs, t.symbol = sym ∧ t.side = "BUY" ∧ eps ≤ t.qty ∧ 0 ≤ t.price) :
    computeHoldings txs = [⟨upperStr sym, sumQty txs, sumGross txs / sumQty txs⟩] := by
  have hperm := sortByDate_perm txs
  have hwf' : ∀ t ∈ sortByDate txs,
      t.symbol = sym ∧ t.side = "BUY" ∧ eps ≤ t.qty ∧ 0 ≤ t.price :=
    fun t ht => hwf t (hperm.subset ht)
  have hne' : sortByDate txs ≠ [] := by
    intro h
    rw [h] at hperm
    exact hne hperm.symm.eq_nil
  have hsq : sumQty (sortByDate txs) = sumQty txs := by
    unfold sumQty
    exact (hperm.map Tx.qty).sum_eq
  have hsg : sumGross (sortByDate txs) = sumGross txs := by
    unfold sumGross
    exact (hperm.map fun t => t.qty * t.price).sum_eq
  have hsum_pos : 0 < sumQty txs := by
    obtain ⟨u, us, rfl⟩ := List.exists_cons_of_ne_nil hne
    have hu := (hwf u (List.mem_cons_self _ _)).2.2.1
    have hrest : 0 ≤ (us.map Tx.qty).sum := by
      apply List.sum_nonneg
      intro x hx
      rcases List.mem_map.1 hx with ⟨v, hv, rfl⟩
      have hv' := (hwf v (List.mem_cons_of_mem _ hv)).2.2.1
      linarith [eps_pos]
    simp only [sumQty, List.map_cons, List.sum_cons]
    linarith [eps_pos]
  have heq : finalLots txs =
      [(upperStr sym, ⟨sumQty txs, sumGross txs⟩)] := by
    obtain ⟨t0, rest, hcons⟩ := List.exists_cons_of_ne_nil hne'
    have ht0 := hwf' t0 (by rw [hcons]; exact List.mem_cons_self _ _)
    have hrest : ∀ t ∈ rest, t.symbol = sym ∧ t.side = "BUY" ∧ 0 < t.qty := by
      intro t ht
      have h1 := hwf' t (by rw [hcons]; exact List.mem_cons_of_mem _ ht)
      exact ⟨h1.1, h1.2.1, lt_of_lt_of_le eps_pos h1.2.2.1⟩
    have happ0 : applyTx [] t0 = [(upperStr sym, ⟨t0.qty, t0.qty * t0.price⟩)] := by
      have hsym : upperStr t0.symbol = upperStr sym := by rw [ht0.1]
      have hnosnap : ¬ |t0.qty| < eps := by
        have hpos : (0 : ℚ) < t0.qty := lt_of_lt_of_le eps_pos ht0.2.2.1
        rw [abs_of_pos hpos]
        linarith [ht0.2.2.1]
      simp [applyTx, hsym, getLot, setLot, stepLot_buy _ _ ht0.2.1, hnosnap]
    unfold finalLots
    rw [hcons, List.foldl_cons, happ0,
      foldl_buys_single sym rest t0.qty (t0.qty * t0.price) ht0.2.2.1 hrest]
    rw [← hsq, ← hsg, hcons]
    simp only [sumQty, sumGross, List.map_cons, List.sum_cons]
  unfold computeHoldings
  rw [heq]
  simp [hsum_pos, ne_of_gt hsum_pos]

/-- Witness: C6 on two BUYs of symbol `msft`, 1 @ 2 and 3 @ 4. -/
theorem C6_all_buy_weighted_average_witness :
    computeHoldings [⟨"msft", "BUY", 1, 2, 5, ""⟩, ⟨"msft", "BUY", 3, 4, 6, ""⟩] =
      [⟨upperStr "msft",
        sumQty [⟨"msft", "BUY", 1, 2, 5, ""⟩, ⟨"msft", "BUY", 3, 4, 6, ""⟩],
        sumGross [⟨"msft", "BUY", 1, 2, 5, ""⟩, ⟨"msft", "BUY", 3, 4, 6, ""⟩] /
          sumQty [⟨"msft", "BUY", 1, 2, 5, ""⟩, ⟨"msft", "BUY", 3, 4, 6, ""⟩]⟩] :=
  C6_all_buy_weighted_average "msft" _ (by decide) (by norm_num [eps])

/-- C6 counterexample: a single well-formed BUY (qty `1e-10 > 0`, price 5)
produces no holding at all — the snap at line 86 zeroes the accumulator
because the quantity is below the `1e-9` tolerance — so the output is `[]`
rather than one holding with the claimed quantity and average. -/
theorem C6_tiny_buy_counterexample :
    (0 : ℚ) < 1 / 10000000000 ∧ (0 : ℚ) ≤ 5 ∧
    computeHoldings [⟨"AAA", "BUY", 1 / 10000000000, 5, 0, ""⟩] = [] := by
  refine ⟨by norm_num, by norm_num, ?_⟩
  have hb : (⟨"AAA", "BUY", 1 / 10000000000, 5, 0, ""⟩ : Tx).side = "BUY" := rfl
  have hcond : |(⟨0, 0⟩ : Lot).qty + (⟨"AAA", "BUY", 1 / 10000000000, 5, 0, ""⟩ : Tx).qty|
      < eps := by
    show |(0 : ℚ) + 1 / 10000000000| < eps
    rw [zero_add, abs_of_pos (by norm_num)]
    norm_num [eps]
  have hstep : stepLot ⟨0, 0⟩ ⟨"AAA", "BUY", 1 / 10000000000, 5, 0, ""⟩ = ⟨0, 0⟩ := by
    rw [stepLot_buy _ _ hb, if_pos hcond]
  have h1 : applyTx [] ⟨"AAA", "BUY", 1 / 10000000000, 5, 0, ""⟩ =
      [("AAA", ⟨0, 0⟩)] := by
    show setLot [] (upperStr "AAA")
        (stepLot ⟨0, 0⟩ ⟨"AAA", "BUY", 1 / 10000000000, 5, 0, ""⟩) = [("AAA", ⟨0, 0⟩)]
    rw [hstep]
    decide
  unfold computeHoldings finalLots
  rw [show sortByDate [⟨"AAA", "BUY", 1 / 10000000000, 5, 0, ""⟩] =
      [⟨"AAA", "BUY", 1 / 10000000000, 5, 0, ""⟩] from rfl]
  rw [List.foldl_cons, List.foldl_nil, h1]
  decide

/-- C10 (amended): a SELL of at least the whole positive position removes the
entire prior cost accumulator — cost becomes exactly 0 — while the quantity
accumulator becomes `qtyBefore − t.qty ≤ 0` (snapped to exactly 0 when that
difference is within the `1e-9` tolerance); and any symbol whose final
accumulator quantity is ≤ 0 is absent from the holdings output. -/
theorem C10_oversell_clears_cost (l : Lot) (t : Tx) (txs : List Tx) (s : String)
    (lf : Lot) (hside : t.side = "SELL") (h0 : 0 < l.qty) (hge : l.qty ≤ t.qty)
    (hget : getLot (finalLots txs) s = some lf) (hle : lf.qty ≤ 0) :
    (stepLot l t).cost = 0 ∧
    (stepLot l t).qty = (if |l.qty - t.qty| < eps then 0 else l.qty - t.qty) ∧
    l.qty - t.qty ≤ 0 ∧
    s ∉ (computeHoldings txs).map Holding.symbol := by
  have hb : ¬ t.side = "BUY" := by rw [hside]; decide
  have hcost0 : l.cost - min l.qty t.qty * (l.cost / l.qty) = 0 := by
    rw [min_eq_left hge, mul_div_cancel₀ l.cost (ne_of_gt h0), sub_self]
  refine ⟨?_, ?_, by linarith, ?_⟩
  · rw [stepLot_sell l t hb, if_pos h0]
    split
    · rfl
    · exact hcost0
  · rw [stepLot_sell l t hb]
    by_cases hc : |l.qty - t.qty| < eps
    · simp [hc]
    · simp [hc]
  · intro hmem
    rcases mem_holdings_symbol txs s hmem with ⟨l', hget', hpos⟩
    rw [hget] at hget'
    cases hget'
    exact absurd hpos (not_lt.2 hle)

/-- A lone SELL of 1 unit with nothing held leaves the accumulator at
`⟨-1, 0⟩` (the oversell is not clamped). -/
theorem finalLots_lone_sell :
    finalLots [⟨"AAA", "SELL", 1, 1, 1, ""⟩] = [("AAA", ⟨-1, 0⟩)] := by
  have hb : ¬ (⟨"AAA", "SELL", 1, 1, 1, ""⟩ : Tx).side = "BUY" := by decide
  have hcond : ¬ |(⟨0, 0⟩ : Lot).qty - (⟨"AAA", "SELL", 1, 1, 1, ""⟩ : Tx).qty| < eps := by
    show ¬ |(0 : ℚ) - 1| < eps
    rw [show (0 : ℚ) - 1 = -1 by ring, abs_neg, abs_one]
    norm_num [eps]
  have hstep : stepLot ⟨0, 0⟩ ⟨"AAA", "SELL", 1, 1, 1, ""⟩ = ⟨-1, 0⟩ := by
    rw [stepLot_sell _ _ hb, if_neg hcond]
    show (⟨(0 : ℚ) - 1,
      (0 : ℚ) - min (0 : ℚ) 1 * (if (0 : ℚ) < 0 then (0 : ℚ) / 0 else 0)⟩ : Lot) = ⟨-1, 0⟩
    rw [if_neg (lt_irrefl (0 : ℚ))]
    norm_num
  unfold finalLots
  rw [show sortByDate [⟨"AAA", "SELL", 1, 1, 1, ""⟩] =
      [⟨"AAA", "SELL", 1, 1, 1, ""⟩] from rfl]
  rw [List.foldl_cons, List.foldl_nil]
  show setLot [] (upperStr "AAA")
      (stepLot ⟨0, 0⟩ ⟨"AAA", "SELL", 1, 1, 1, ""⟩) = [("AAA", ⟨-1, 0⟩)]
  rw [hstep]
  rfl

/-- Witness: C10 at a SELL of 5 against a held lot of 2 units costing 6, and
a one-transaction ledger whose oversold symbol must not be emitted. -/
theorem C10_oversell_clears_cost_witness :
    (stepLot ⟨2, 6⟩ ⟨"BBB", "SELL", 5, 1, 9, ""⟩).cost = 0 ∧
    (stepLot ⟨2, 6⟩ ⟨"BBB", "SELL", 5, 1, 9, ""⟩).qty =
      (if |(2 : ℚ) - 5| < eps then 0 else (2 : ℚ) - 5) ∧
    (2 : ℚ) - 5 ≤ 0 ∧
    "AAA" ∉ (computeHoldings [⟨"AAA", "SELL", 1, 1, 1, ""⟩]).map Holding.symbol :=
  C10_oversell_clears_cost ⟨2, 6⟩ ⟨"BBB", "SELL", 5, 1, 9, ""⟩
    [⟨"AAA", "SELL", 1, 1, 1, ""⟩] "AAA" ⟨-1, 0⟩ rfl (by norm_num) (by norm_num)
    (by rw [finalLots_lone_sell]; rfl) (by norm_num)

/-- C10 counterexample: with 1 unit held and a SELL of `1 + 1e-10` units
(an oversell within the snap tolerance), the quantity accumulator is snapped
to exactly 0 and does not equal `qtyBefore − t.qty = −1e-10`. -/
theorem C10_snap_counterexample :
    (0 : ℚ) < 1 ∧ (1 : ℚ) ≤ 1 + 1 / 10000000000 ∧
    (stepLot ⟨1, 1⟩ ⟨"AAA", "SELL", 1 + 1 / 10000000000, 7, 0, ""⟩).qty ≠
      (1 : ℚ) - (1 + 1 / 10000000000) := by
  refine ⟨by norm_num, by norm_num, ?_⟩
  have hb : ¬ (⟨"AAA", "SELL", 1 + 1 / 10000000000, 7, 0, ""⟩ : Tx).side = "BUY" := by
    decide
  have hcond : |(⟨1, 1⟩ : Lot).qty -
      (⟨"AAA", "SELL", 1 + 1 / 10000000000, 7, 0, ""⟩ : Tx).qty| < eps := by
    show |(1 : ℚ) - (1 + 1 / 10000000000)| < eps
    rw [show (1 : ℚ) - (1 + 1 / 10000000000) = -(1 / 10000000000) by ring, abs_neg,
      abs_of_pos (by norm_num)]
    norm_num [eps]
  rw [stepLot_sell _ _ hb, if_pos hcond]
  show (0 : ℚ) ≠ 1 - (1 + 1 / 10000000000)
  norm_num
